import Mathlib

/-!
Shallow embedding of the goldmark-headingid repository (src/headingid.go and
src/unnamed/part_000): the slugify routine, the transliteration tables, and
the identifier registry with its Generate/Put operations.

Bytes and runes are modelled as Nat; byte slices as List Nat; the key set of
the Go map values as a duplicate-free List (List Nat).  The two loops of the
source - the rune loop of slugify and the suffix search of Generate - are
written with an explicit fuel argument so that they are structurally
recursive and kernel-evaluable; theorems below prove that the chosen fuel is
always sufficient, which is the termination argument of the source.
-/

namespace HeadingId

/-- UTF-8 encoding of one code point, used to build concrete byte inputs
from Lean string literals the way Go obtains a byte slice from a string
literal. -/
def utf8EncodeChar (c : Nat) : List Nat :=
  if c < 0x80 then [c]
  else if c < 0x800 then [0xC0 + c / 0x40, 0x80 + c % 0x40]
  else if c < 0x10000 then [0xE0 + c / 0x1000, 0x80 + c / 0x40 % 0x40, 0x80 + c % 0x40]
  else [0xF0 + c / 0x40000, 0x80 + c / 0x1000 % 0x40, 0x80 + c / 0x40 % 0x40, 0x80 + c % 0x40]

/-- The UTF-8 bytes of a Lean string literal: the Go byte slice of the same
literal. -/
def strBytes (s : String) : List Nat :=
  (s.data.map (fun c => utf8EncodeChar c.toNat)).flatten

/-- Lower bound of the accepted second-byte range of Go utf8.DecodeRune
(the acceptRanges table): 0xA0 after an 0xE0 first byte, 0x90 after 0xF0,
otherwise 0x80. -/
def utf8AcceptLo (b0 : Nat) : Nat :=
  if b0 = 0xE0 then 0xA0 else if b0 = 0xF0 then 0x90 else 0x80

/-- Upper bound of the accepted second-byte range of Go utf8.DecodeRune:
0x9F after an 0xED first byte, 0x8F after 0xF4, otherwise 0xBF. -/
def utf8AcceptHi (b0 : Nat) : Nat :=
  if b0 = 0xED then 0x9F else if b0 = 0xF4 then 0x8F else 0xBF

/-- Embedding of Go utf8.DecodeRune: returns the decoded rune and the number
of bytes consumed.  RuneError is 0xFFFD.  An empty input yields size 0 (the
loop guard of slugify makes that case unreachable); every other input yields
size at least 1: ASCII and every malformed prefix consume one byte, valid
multi-byte sequences consume their length. -/
def utf8DecodeRune : List Nat → Nat × Nat
  | [] => (0xFFFD, 0)
  | b0 :: rest =>
    if b0 < 0x80 then (b0, 1)
    else if 0xC2 ≤ b0 ∧ b0 ≤ 0xDF then
      match rest with
      | b1 :: _ =>
        if utf8AcceptLo b0 ≤ b1 ∧ b1 ≤ utf8AcceptHi b0 then
          ((b0 - 0xC0) * 0x40 + (b1 - 0x80), 2)
        else (0xFFFD, 1)
      | [] => (0xFFFD, 1)
    else if 0xE0 ≤ b0 ∧ b0 ≤ 0xEF then
      match rest with
      | b1 :: b2 :: _ =>
        if utf8AcceptLo b0 ≤ b1 ∧ b1 ≤ utf8AcceptHi b0 ∧ 0x80 ≤ b2 ∧ b2 ≤ 0xBF then
          ((b0 - 0xE0) * 0x1000 + (b1 - 0x80) * 0x40 + (b2 - 0x80), 3)
        else (0xFFFD, 1)
      | _ => (0xFFFD, 1)
    else if 0xF0 ≤ b0 ∧ b0 ≤ 0xF4 then
      match rest with
      | b1 :: b2 :: b3 :: _ =>
        if utf8AcceptLo b0 ≤ b1 ∧ b1 ≤ utf8AcceptHi b0 ∧
            0x80 ≤ b2 ∧ b2 ≤ 0xBF ∧ 0x80 ≤ b3 ∧ b3 ≤ 0xBF then
          ((b0 - 0xF0) * 0x40000 + (b1 - 0x80) * 0x1000 + (b2 - 0x80) * 0x40 + (b3 - 0x80), 4)
        else (0xFFFD, 1)
      | _ => (0xFFFD, 1)
    else (0xFFFD, 1)

/-- Association-list lookup, the indexing of the Go repl map by a rune key. -/
def tableLookup : List (Nat × List Nat) → Nat → Option (List Nat)
  | [], _ => none
  | (k, v) :: rest, r => if r = k then some v else tableLookup rest r

/-- The repl map of src/headingid.go: lowercase extended-Latin code points
mapped to their ASCII replacement bytes. -/
def repl : List (Nat × List Nat) :=
  [(0xE1, [0x61]), (0xE0, [0x61]), (0xE2, [0x61]), (0xE4, [0x61]), (0xE3, [0x61]), (0xE5, [0x61]),
   (0xE9, [0x65]), (0xE8, [0x65]), (0xEA, [0x65]), (0xEB, [0x65]),
   (0xED, [0x69]), (0xEC, [0x69]), (0xEE, [0x69]), (0xEF, [0x69]), (0x131, [0x69]),
   (0xF3, [0x6F]), (0xF2, [0x6F]), (0xF4, [0x6F]), (0xF6, [0x6F]), (0xF5, [0x6F]),
   (0xFA, [0x75]), (0xF9, [0x75]), (0xFB, [0x75]), (0xFC, [0x75]),
   (0x11F, [0x67]), (0xF1, [0x6E]), (0xE7, [0x63]),
   (0xFD, [0x79]), (0xFF, [0x79]),
   (0xFE, [0x74, 0x68]), (0xF0, [0x64]),
   (0xE6, [0x61, 0x65]), (0x153, [0x6F, 0x65])]

/-- The Go function unicode.ToLower, restricted to the mappings that can
reach a key of the repl table above: ASCII A-Z, the Latin-1 uppercase block
0xC0-0xDE except the multiplication sign 0xD7, and the isolated uppercase
forms 0x178 (to 0xFF), 0x11E (to 0x11F), 0x130 (to 0x69), 0x152 (to 0x153)
and 0x212B (to 0xE5).  Per the Unicode simple-lowercase data used by Go,
every other code point either is fixed by ToLower or is lowered to a code
point that is not a key of repl, so returning the argument unchanged there
is observationally equivalent for the composite lookup below. -/
def unicodeToLower (r : Nat) : Nat :=
  if 0x41 ≤ r ∧ r ≤ 0x5A then r + 0x20
  else if 0xC0 ≤ r ∧ r ≤ 0xDE ∧ r ≠ 0xD7 then r + 0x20
  else if r = 0x178 then 0xFF
  else if r = 0x11E then 0x11F
  else if r = 0x130 then 0x69
  else if r = 0x152 then 0x153
  else if r = 0x212B then 0xE5
  else r

/-- The transliteration lookup of src/headingid.go line 104: the repl map
indexed at unicode.ToLower of the rune. -/
def replGoLookup (r : Nat) : Option (List Nat) :=
  tableLookup repl (unicodeToLower r)

/-- One iteration body plus loop of slugify in src/headingid.go (lines
82-128), with the output buffer and the prevSep flag threaded explicitly and
an outer fuel counter making the recursion structural.  The branch order
follows the source: ASCII uppercase, ASCII lowercase or digit, other ASCII
to a collapsed separator; then the transliteration lookup; the
IsLetter-or-IsDigit branch and the final branch of the source have
byte-for-byte identical bodies (emit a collapsed separator), so they appear
merged here. -/
def slugLoop (sep : Nat) : Nat → List Nat → List Nat → Bool → List Nat
  | 0, _, buf, _ => buf
  | _ + 1, [], buf, _ => buf
  | fuel + 1, b :: rest, buf, prevSep =>
    let r := (utf8DecodeRune (b :: rest)).1
    let tl := (b :: rest).drop (utf8DecodeRune (b :: rest)).2
    if r < 0x80 then
      if 0x41 ≤ r ∧ r ≤ 0x5A then
        slugLoop sep fuel tl (buf ++ [r + 0x20]) false
      else if (0x61 ≤ r ∧ r ≤ 0x7A) ∨ (0x30 ≤ r ∧ r ≤ 0x39) then
        slugLoop sep fuel tl (buf ++ [r]) false
      else if prevSep = false ∧ buf ≠ [] then
        slugLoop sep fuel tl (buf ++ [sep]) true
      else
        slugLoop sep fuel tl buf prevSep
    else
      match replGoLookup r with
      | some s => slugLoop sep fuel tl (buf ++ s) false
      | none =>
        if prevSep = false ∧ buf ≠ [] then
          slugLoop sep fuel tl (buf ++ [sep]) true
        else
          slugLoop sep fuel tl buf prevSep

/-- Lines 129-133 of src/headingid.go (and the identical lines 133-141 of
src/unnamed/part_000): trim one trailing separator if present, then one
leading separator if present. -/
def slugTrim (sep : Nat) (b : List Nat) : List Nat :=
  let b1 := if b.getLast? = some sep then b.dropLast else b
  if b1.head? = some sep then b1.tail else b1

/-- slugify of src/headingid.go (lines 76-138): run the rune loop, then trim
one trailing separator and then one leading separator.  The fuel equals the
input length, which the totality theorem below proves sufficient since every
decode step consumes at least one byte. -/
def slugify (inp : List Nat) (sep : Nat) : List Nat :=
  if inp = [] then [] else slugTrim sep (slugLoop sep inp.length inp [] false)

/-- The repl map of src/unnamed/part_000: explicit uppercase and lowercase
keys, replacement strings kept in the case written in the source. -/
def replPart000 : List (Nat × List Nat) :=
  [(0xC1, [0x41]), (0xC0, [0x41]), (0xC2, [0x41]), (0xC4, [0x41]), (0xC3, [0x41]), (0xC5, [0x41]),
   (0xE1, [0x61]), (0xE0, [0x61]), (0xE2, [0x61]), (0xE4, [0x61]), (0xE3, [0x61]), (0xE5, [0x61]),
   (0xC9, [0x45]), (0xC8, [0x45]), (0xCA, [0x45]), (0xCB, [0x45]),
   (0xE9, [0x65]), (0xE8, [0x65]), (0xEA, [0x65]), (0xEB, [0x65]),
   (0xCD, [0x49]), (0xCC, [0x49]), (0xCE, [0x49]), (0xCF, [0x49]),
   (0xED, [0x69]), (0xEC, [0x69]), (0xEE, [0x69]), (0xEF, [0x69]),
   (0xD3, [0x4F]), (0xD2, [0x4F]), (0xD4, [0x4F]), (0xD6, [0x4F]), (0xD5, [0x4F]),
   (0xF3, [0x6F]), (0xF2, [0x6F]), (0xF4, [0x6F]), (0xF6, [0x6F]), (0xF5, [0x6F]),
   (0xDA, [0x55]), (0xD9, [0x55]), (0xDB, [0x55]), (0xDC, [0x55]),
   (0xFA, [0x75]), (0xF9, [0x75]), (0xFB, [0x75]), (0xFC, [0x75]),
   (0xD1, [0x4E]), (0xF1, [0x6E]), (0xC7, [0x43]), (0xE7, [0x63]),
   (0xDD, [0x59]), (0xFD, [0x79]), (0xFF, [0x79]),
   (0xDE, [0x74, 0x68]), (0xFE, [0x74, 0x68]), (0xD0, [0x64]), (0xF0, [0x64]),
   (0xC6, [0x61, 0x65]), (0xE6, [0x61, 0x65]), (0x152, [0x6F, 0x65]), (0x153, [0x6F, 0x65])]

/-- The Go function strings.ToLower on an ASCII string, applied by
src/unnamed/part_000 to the replacement before writing it; every value of
replPart000 is ASCII, where strings.ToLower is the byte-wise A-Z shift. -/
def strToLowerAscii (s : List Nat) : List Nat :=
  s.map (fun c => if 0x41 ≤ c ∧ c ≤ 0x5A then c + 0x20 else c)

/-- The transliteration lookup of src/unnamed/part_000 lines 108-110: the
repl map indexed at the rune directly, the hit lowered with
strings.ToLower. -/
def replPart000Lookup (r : Nat) : Option (List Nat) :=
  (tableLookup replPart000 r).map strToLowerAscii

/-- The rune loop of slugify in src/unnamed/part_000 (lines 85-131);
identical to slugLoop except for the transliteration lookup. -/
def slugLoopPart000 (sep : Nat) : Nat → List Nat → List Nat → Bool → List Nat
  | 0, _, buf, _ => buf
  | _ + 1, [], buf, _ => buf
  | fuel + 1, b :: rest, buf, prevSep =>
    let r := (utf8DecodeRune (b :: rest)).1
    let tl := (b :: rest).drop (utf8DecodeRune (b :: rest)).2
    if r < 0x80 then
      if 0x41 ≤ r ∧ r ≤ 0x5A then
        slugLoopPart000 sep fuel tl (buf ++ [r + 0x20]) false
      else if (0x61 ≤ r ∧ r ≤ 0x7A) ∨ (0x30 ≤ r ∧ r ≤ 0x39) then
        slugLoopPart000 sep fuel tl (buf ++ [r]) false
      else if prevSep = false ∧ buf ≠ [] then
        slugLoopPart000 sep fuel tl (buf ++ [sep]) true
      else
        slugLoopPart000 sep fuel tl buf prevSep
    else
      match replPart000Lookup r with
      | some s => slugLoopPart000 sep fuel tl (buf ++ s) false
      | none =>
        if prevSep = false ∧ buf ≠ [] then
          slugLoopPart000 sep fuel tl (buf ++ [sep]) true
        else
          slugLoopPart000 sep fuel tl buf prevSep

/-- slugify of src/unnamed/part_000 (lines 77-146). -/
def slugifyPart000 (inp : List Nat) (sep : Nat) : List Nat :=
  if inp = [] then [] else slugTrim sep (slugLoopPart000 sep inp.length inp [] false)

/-- The rune sequence decoded from a byte input, with the same fuel pattern
as the slugify loop; used to compare the two implementations pointwise. -/
def runesOf : Nat → List Nat → List Nat
  | 0, _ => []
  | _ + 1, [] => []
  | fuel + 1, b :: rest =>
    (utf8DecodeRune (b :: rest)).1 ::
      runesOf fuel ((b :: rest).drop (utf8DecodeRune (b :: rest)).2)

/-- The ids struct of src/headingid.go: the key set of its values map,
modelled as a duplicate-free list of byte strings. -/
structure Ids where
  values : List (List Nat)
deriving DecidableEq

/-- NewIDs of src/headingid.go: an empty map. -/
def NewIDs : Ids := ⟨[]⟩

/-- Setting a key of the Go map values to true: a no-op when the key is
present, otherwise the key joins the set. -/
def mapSet (vals : List (List Nat)) (k : List Nat) : List (List Nat) :=
  if k ∈ vals then vals else k :: vals

/-- The ast.NodeKind discriminator, restricted to the only distinction the
package observes: Generate compares its kind argument with ast.KindHeading
and nothing else. -/
inductive NodeKind where
  | heading
  | other
deriving DecidableEq

/-- Decimal digits of a number, most significant first, as ASCII bytes: the
output of the Go verb %d for a non-negative integer.  Structured with fuel
so that it is structurally recursive; fuel n is enough since the argument
strictly decreases under division by ten. -/
def natBytesGo : Nat → Nat → List Nat
  | 0, n => [n % 10 + 0x30]
  | fuel + 1, n => if n < 10 then [n + 0x30] else natBytesGo fuel (n / 10) ++ [n % 10 + 0x30]

/-- ASCII decimal representation of a Nat, the %d rendering in Go. -/
def natBytes (n : Nat) : List Nat := natBytesGo n n

/-- fmt.Sprintf of the format %s-%d in Generate (src/headingid.go line
49). -/
def sprintfSD (base : List Nat) (i : Nat) : List Nat :=
  base ++ 0x2D :: natBytes i

/-- The suffix-search loop of Generate (src/headingid.go lines 48-54): try
i, i+1, ... until the composite is absent.  Fuel-bounded; the termination
theorem shows fuel equal to the set size plus one always suffices, so the
fuel-exhausted arm is unreachable. -/
def findSuffix (vals : List (List Nat)) (base : List Nat) : Nat → Nat → Nat
  | i, 0 => i
  | i, fuel + 1 => if sprintfSD base i ∈ vals then findSuffix vals base (i + 1) fuel else i

/-- Lines 36-43 of Generate in src/headingid.go: slugify the value with the
dash separator and substitute the fallback token when the slug is empty. -/
def candidate (value : List Nat) (kind : NodeKind) : List Nat :=
  let result := slugify value 0x2D
  if result = [] then
    if kind = NodeKind.heading then strBytes "heading" else strBytes "id"
  else result

/-- Lines 44-54 of Generate in src/headingid.go: insert and return the
candidate when it is absent, otherwise insert and return the first composite
candidate-i absent from the set. -/
def resolve (s : Ids) (result : List Nat) : List Nat × Ids :=
  if result ∈ s.values then
    let i := findSuffix s.values result 1 (s.values.length + 1)
    (sprintfSD result i, ⟨mapSet s.values (sprintfSD result i)⟩)
  else (result, ⟨mapSet s.values result⟩)

/-- Generate of src/headingid.go (lines 35-55), returning the generated id
and the updated registry. -/
def Generate (s : Ids) (value : List Nat) (kind : NodeKind) : List Nat × Ids :=
  resolve s (candidate value kind)

/-- Put of src/headingid.go (lines 57-59): unconditional insertion. -/
def Put (s : Ids) (value : List Nat) : Ids :=
  ⟨mapSet s.values value⟩

/-- A call against a registry instance: either Generate with a value and a
kind, or Put with a value. -/
inductive Op where
  | gen (value : List Nat) (kind : NodeKind)
  | put (value : List Nat)

/-- The registry state after a sequence of calls. -/
def runOps (s : Ids) : List Op → Ids
  | [] => s
  | Op.gen v k :: rest => runOps (Generate s v k).2 rest
  | Op.put v :: rest => runOps (Put s v) rest

/-- Every string returned by Generate or passed to Put along a sequence of
calls, in call order. -/
def emitted (s : Ids) : List Op → List (List Nat)
  | [] => []
  | Op.gen v k :: rest => (Generate s v k).1 :: emitted (Generate s v k).2 rest
  | Op.put v :: rest => v :: emitted (Put s v) rest

/-- The strings returned by Generate along a sequence of calls, in call
order. -/
def genOuts (s : Ids) : List Op → List (List Nat)
  | [] => []
  | Op.gen v k :: rest => (Generate s v k).1 :: genOuts (Generate s v k).2 rest
  | Op.put v :: rest => genOuts (Put s v) rest

/-- A byte the slugify loop emits outside the separator branches: an ASCII
lowercase letter or an ASCII digit. -/
def isOutAl (c : Nat) : Prop :=
  (0x61 ≤ c ∧ c ≤ 0x7A) ∨ (0x30 ≤ c ∧ c ≤ 0x39)

instance (c : Nat) : Decidable (isOutAl c) :=
  inferInstanceAs (Decidable ((0x61 ≤ c ∧ c ≤ 0x7A) ∨ (0x30 ≤ c ∧ c ≤ 0x39)))

/-- No two adjacent bytes of the list both equal the separator. -/
def noAdjSep (sep : Nat) (l : List Nat) : Prop :=
  l.Chain' (fun a b => ¬(a = sep ∧ b = sep))

instance (sep : Nat) (l : List Nat) : Decidable (noAdjSep sep l) :=
  inferInstanceAs (Decidable (l.Chain' (fun a b => ¬(a = sep ∧ b = sep))))

/-- Decimal value of a digit-byte string, the left inverse of natBytes. -/
def decVal (l : List Nat) : Nat :=
  l.foldl (fun a d => a * 10 + (d - 0x30)) 0

/-- Invariant of the slugify loop tying the prevSep flag to the buffer: the
flag is set exactly when the last emitted byte is the separator, no two
adjacent bytes are separators, and the buffer does not start with the
separator.  Holds for separators that are not themselves emitted as
alphanumeric output. -/
def sepInv (sep : Nat) (buf : List Nat) (prev : Bool) : Prop :=
  (prev = true ↔ buf.getLast? = some sep) ∧ noAdjSep sep buf ∧ buf.head? ≠ some sep

/- ### Helper lemmas -/

theorem tableLookup_mem : ∀ (t : List (Nat × List Nat)) (r : Nat) (s : List Nat),
    tableLookup t r = some s → s ∈ t.map Prod.snd := by
  intro t
  induction t with
  | nil => intro r s h; simp [tableLookup] at h
  | cons kv rest ih =>
    intro r s h
    obtain ⟨k, v⟩ := kv
    by_cases hk : r = k
    · simp [tableLookup, hk] at h
      simp [h.symm]
    · simp [tableLookup, hk] at h
      simp [ih r s h]

theorem repl_values_ok :
    ∀ s ∈ repl.map Prod.snd, s ≠ [] ∧ ∀ c ∈ s, 0x61 ≤ c ∧ c ≤ 0x7A := by
  decide

theorem replGoLookup_ok (r : Nat) (s : List Nat) (h : replGoLookup r = some s) :
    s ≠ [] ∧ ∀ c ∈ s, isOutAl c := by
  have hm := tableLookup_mem repl (unicodeToLower r) s h
  have := repl_values_ok s hm
  exact ⟨this.1, fun c hc => Or.inl (this.2 c hc)⟩

theorem utf8DecodeRune_size (inp : List Nat) (h : inp ≠ []) :
    1 ≤ (utf8DecodeRune inp).2 ∧ (utf8DecodeRune inp).2 ≤ inp.length := by
  match inp with
  | b0 :: rest =>
    simp only [utf8DecodeRune]
    repeat' split
    all_goals simp

theorem slugLoop_nil (sep : Nat) (fuel : Nat) (buf : List Nat) (prev : Bool) :
    slugLoop sep fuel [] buf prev = buf := by
  cases fuel <;> simp [slugLoop]

theorem slugLoopPart000_nil (sep : Nat) (fuel : Nat) (buf : List Nat) (prev : Bool) :
    slugLoopPart000 sep fuel [] buf prev = buf := by
  cases fuel <;> simp [slugLoopPart000]

theorem slugLoop_fuel (sep : Nat) :
    ∀ f₁ f₂ inp buf prev, inp.length ≤ f₁ → inp.length ≤ f₂ →
      slugLoop sep f₁ inp buf prev = slugLoop sep f₂ inp buf prev := by
  intro f₁
  induction f₁ with
  | zero =>
    intro f₂ inp buf prev h₁ _
    have hn : inp = [] := List.length_eq_zero.mp (Nat.le_zero.mp h₁)
    subst hn
    rw [slugLoop_nil, slugLoop_nil]
  | succ n ih =>
    intro f₂ inp buf prev h₁ h₂
    cases inp with
    | nil => rw [slugLoop_nil, slugLoop_nil]
    | cons b rest =>
      obtain ⟨m, rfl⟩ : ∃ m, f₂ = m + 1 := by
        cases f₂ with
        | zero => simp at h₂
        | succ m => exact ⟨m, rfl⟩
      have hsz := utf8DecodeRune_size (b :: rest) (by simp)
      have hd₁ : ((b :: rest).drop (utf8DecodeRune (b :: rest)).2).length ≤ n := by
        rw [List.length_drop]; simp only [List.length_cons] at h₁ ⊢; omega
      have hd₂ : ((b :: rest).drop (utf8DecodeRune (b :: rest)).2).length ≤ m := by
        rw [List.length_drop]; simp only [List.length_cons] at h₂ ⊢; omega
      simp only [slugLoop]
      repeat' split
      all_goals exact ih m _ _ _ hd₁ hd₂

theorem alphabet_append (sep : Nat) (buf s : List Nat)
    (hb : ∀ c ∈ buf, isOutAl c ∨ c = sep) (hs : ∀ c ∈ s, isOutAl c ∨ c = sep) :
    ∀ c ∈ buf ++ s, isOutAl c ∨ c = sep := by
  intro c hc
  rcases List.mem_append.mp hc with h | h
  exacts [hb c h, hs c h]

theorem slugLoop_alphabet (sep : Nat) :
    ∀ fuel inp buf prev, (∀ c ∈ buf, isOutAl c ∨ c = sep) →
      ∀ c ∈ slugLoop sep fuel inp buf prev, isOutAl c ∨ c = sep := by
  intro fuel
  induction fuel with
  | zero => intro inp buf prev h; simpa [slugLoop] using h
  | succ n ih =>
    intro inp buf prev h
    cases inp with
    | nil => simpa [slugLoop] using h
    | cons b rest =>
      simp only [slugLoop]
      split
      · split
        · next hr =>
          refine ih _ _ _ (alphabet_append sep _ _ h ?_)
          intro c hc
          simp only [List.mem_singleton] at hc
          subst hc
          left
          unfold isOutAl
          omega
        · split
          · next hr =>
            refine ih _ _ _ (alphabet_append sep _ _ h ?_)
            intro c hc
            simp only [List.mem_singleton] at hc
            subst hc
            exact Or.inl hr
          · split
            · refine ih _ _ _ (alphabet_append sep _ _ h ?_)
              intro c hc
              simp only [List.mem_singleton] at hc
              subst hc
              exact Or.inr rfl
            · exact ih _ _ _ h
      · split
        · next s hs =>
          refine ih _ _ _ (alphabet_append sep _ _ h ?_)
          intro c hc
          exact Or.inl ((replGoLookup_ok _ _ hs).2 c hc)
        · split
          · refine ih _ _ _ (alphabet_append sep _ _ h ?_)
            intro c hc
            simp only [List.mem_singleton] at hc
            subst hc
            exact Or.inr rfl
          · exact ih _ _ _ h

theorem slugTrim_subset (sep : Nat) (b : List Nat) : slugTrim sep b ⊆ b := by
  unfold slugTrim
  intro c hc
  by_cases h1 : b.getLast? = some sep
  · simp only [h1, if_pos] at hc
    by_cases h2 : b.dropLast.head? = some sep
    · simp only [h2, if_pos] at hc
      exact List.dropLast_subset b (List.mem_of_mem_tail hc)
    · simp only [h2, if_neg, ite_false] at hc
      exact List.dropLast_subset b hc
  · simp only [h1, if_neg, ite_false] at hc
    by_cases h2 : b.head? = some sep
    · simp only [h2, if_pos] at hc
      exact List.mem_of_mem_tail hc
    · simp only [h2, if_neg, ite_false] at hc
      exact hc

theorem noAdjSep_of_forall_ne (sep : Nat) (s : List Nat) (hs : ∀ c ∈ s, c ≠ sep) :
    noAdjSep sep s := by
  unfold noAdjSep
  refine List.Pairwise.chain' (List.pairwise_of_forall_mem_list ?_)
  intro a ha b _ hab
  exact (hs a ha) hab.1

theorem sepInv_append_chunk (sep : Nat) (buf s : List Nat) (prev : Bool)
    (hinv : sepInv sep buf prev) (hne : s ≠ []) (hs : ∀ c ∈ s, c ≠ sep) :
    sepInv sep (buf ++ s) false := by
  obtain ⟨_, hadj, hhead⟩ := hinv
  refine ⟨?_, ?_, ?_⟩
  · constructor
    · intro hf
      cases hf
    · intro hlast
      exfalso
      rw [List.getLast?_append_of_ne_nil buf hne] at hlast
      exact (hs sep (List.mem_of_mem_getLast? (by simp [hlast]))) rfl
  · rw [noAdjSep, List.chain'_append]
    refine ⟨hadj, noAdjSep_of_forall_ne sep s hs, ?_⟩
    intro x _ y hy hxy
    exact (hs y (List.mem_of_mem_head? hy)) hxy.2
  · cases buf with
    | nil =>
      simp only [List.nil_append]
      intro hx
      exact (hs sep (List.mem_of_mem_head? (by simp [hx]))) rfl
    | cons a t =>
      rw [List.head?_append_of_ne_nil _ (by simp)]
      exact hhead

theorem sepInv_append_sep (sep : Nat) (buf : List Nat)
    (hinv : sepInv sep buf false) (hne : buf ≠ []) :
    sepInv sep (buf ++ [sep]) true := by
  obtain ⟨hiff, hadj, hhead⟩ := hinv
  have hlast : buf.getLast? ≠ some sep := by
    intro hl
    cases (hiff.mpr hl)
  refine ⟨?_, ?_, ?_⟩
  · simp
  · rw [noAdjSep, List.chain'_append]
    refine ⟨hadj, List.chain'_singleton sep, ?_⟩
    intro x hx y _ hxy
    apply hlast
    rw [← hxy.1]
    simpa using hx
  · rw [List.head?_append_of_ne_nil _ hne]
    exact hhead

theorem slugLoop_sepInv (sep : Nat) (hsep : ¬ isOutAl sep) :
    ∀ fuel inp buf prev, sepInv sep buf prev →
      ∃ p, sepInv sep (slugLoop sep fuel inp buf prev) p := by
  intro fuel
  induction fuel with
  | zero =>
    intro inp buf prev h
    exact ⟨prev, by simpa [slugLoop] using h⟩
  | succ n ih =>
    intro inp buf prev h
    cases inp with
    | nil => rw [slugLoop_nil]; exact ⟨prev, h⟩
    | cons b rest =>
      simp only [slugLoop]
      split
      · split
        · next hr =>
          refine ih _ _ _ (sepInv_append_chunk sep buf _ prev h (by simp) ?_)
          intro c hc
          simp only [List.mem_singleton] at hc
          subst hc
          intro hceq
          apply hsep
          rw [← hceq]
          unfold isOutAl
          omega
        · next hr =>
          split
          · next hr2 =>
            refine ih _ _ _ (sepInv_append_chunk sep buf _ prev h (by simp) ?_)
            intro c hc
            simp only [List.mem_singleton] at hc
            subst hc
            intro hceq
            apply hsep
            rw [← hceq]
            exact hr2
          · split
            · next hc =>
              obtain ⟨hp, hb⟩ := hc
              subst hp
              exact ih _ _ _ (sepInv_append_sep sep buf h hb)
            · exact ih _ _ _ h
      · split
        · next s hs =>
          refine ih _ _ _ (sepInv_append_chunk sep buf s prev h (replGoLookup_ok _ _ hs).1 ?_)
          intro c hc hceq
          apply hsep
          rw [← hceq]
          exact (replGoLookup_ok _ _ hs).2 c hc
        · split
          · next hc =>
            obtain ⟨hp, hb⟩ := hc
            subst hp
            exact ih _ _ _ (sepInv_append_sep sep buf h hb)
          · exact ih _ _ _ h

theorem slugTrim_sepProps (sep : Nat) (b : List Nat) (hadj : noAdjSep sep b)
    (hhead : b.head? ≠ some sep) :
    (slugTrim sep b).head? ≠ some sep ∧ (slugTrim sep b).getLast? ≠ some sep ∧
      noAdjSep sep (slugTrim sep b) := by
  unfold slugTrim
  by_cases h1 : b.getLast? = some sep
  · have hb : b.dropLast ++ [sep] = b := List.dropLast_append_getLast? sep (by simp [h1])
    have hdec : noAdjSep sep b.dropLast ∧
        ∀ x ∈ b.dropLast.getLast?, ¬(x = sep ∧ sep = sep) := by
      rw [noAdjSep, ← hb, List.chain'_append] at hadj
      exact ⟨hadj.1, fun x hx => hadj.2.2 x hx sep (by simp)⟩
    have hlast' : b.dropLast.getLast? ≠ some sep := by
      intro hx
      exact hdec.2 sep (by simp [hx]) ⟨rfl, rfl⟩
    have hhead' : b.dropLast.head? ≠ some sep := by
      cases hd : b.dropLast with
      | nil => simp
      | cons a t =>
        intro hx
        apply hhead
        rw [← hb, List.head?_append_of_ne_nil _ (by simp [hd]), hd]
        exact hx
    simp only [h1, if_pos, if_neg hhead', ite_false]
    exact ⟨hhead', hlast', hdec.1⟩
  · simp only [h1, if_neg, ite_false, if_neg hhead]
    exact ⟨hhead, h1, hadj⟩

theorem decVal_append (l : List Nat) (d : Nat) :
    decVal (l ++ [d]) = decVal l * 10 + (d - 0x30) := by
  unfold decVal
  rw [List.foldl_append]
  rfl

theorem natBytesGo_decVal : ∀ fuel n, n ≤ fuel → decVal (natBytesGo fuel n) = n := by
  intro fuel
  induction fuel with
  | zero =>
    intro n h
    have h0 : n = 0 := Nat.le_zero.mp h
    subst h0
    rfl
  | succ f ih =>
    intro n h
    rw [natBytesGo]
    by_cases hn : n < 10
    · rw [if_pos hn]
      unfold decVal
      simp only [List.foldl_cons, List.foldl_nil]
      omega
    · rw [if_neg hn]
      rw [decVal_append, ih (n / 10) (by omega)]
      omega

theorem natBytes_inj (i j : Nat) (h : natBytes i = natBytes j) : i = j := by
  have hi := natBytesGo_decVal i i (le_refl i)
  have hj := natBytesGo_decVal j j (le_refl j)
  unfold natBytes at h
  rw [h] at hi
  exact hi.symm.trans hj

theorem natBytesGo_digits : ∀ fuel n, ∀ c ∈ natBytesGo fuel n, 0x30 ≤ c ∧ c ≤ 0x39 := by
  intro fuel
  induction fuel with
  | zero =>
    intro n c hc
    simp only [natBytesGo, List.mem_singleton] at hc
    subst hc
    omega
  | succ f ih =>
    intro n c hc
    rw [natBytesGo] at hc
    by_cases hn : n < 10
    · rw [if_pos hn] at hc
      simp only [List.mem_singleton] at hc
      subst hc
      omega
    · rw [if_neg hn] at hc
      rcases List.mem_append.mp hc with h | h
      · exact ih _ c h
      · simp only [List.mem_singleton] at h
        subst h
        omega

theorem sprintfSD_inj (base : List Nat) (i j : Nat)
    (h : sprintfSD base i = sprintfSD base j) : i = j := by
  unfold sprintfSD at h
  have h2 := List.append_cancel_left h
  simp only [List.cons.injEq, true_and] at h2
  exact natBytes_inj i j h2

theorem exists_absent_suffix (vals : List (List Nat)) (base : List Nat) :
    ∃ j, 1 ≤ j ∧ j ≤ vals.length + 1 ∧ sprintfSD base j ∉ vals := by
  by_contra hc
  push_neg at hc
  have hsub : ((List.range (vals.length + 1)).map fun t => sprintfSD base (t + 1)) ⊆ vals := by
    intro x hx
    simp only [List.mem_map, List.mem_range] at hx
    obtain ⟨t, ht, rfl⟩ := hx
    exact hc (t + 1) (by omega) (by omega)
  have hnd : ((List.range (vals.length + 1)).map fun t => sprintfSD base (t + 1)).Nodup := by
    refine List.Nodup.map ?_ (List.nodup_range _)
    intro a b hab
    have := sprintfSD_inj base (a + 1) (b + 1) hab
    omega
  have hlen := (List.subperm_of_subset hnd hsub).length_le
  simp only [List.length_map, List.length_range] at hlen
  omega

theorem findSuffix_least (vals : List (List Nat)) (base : List Nat) :
    ∀ fuel i, (∃ j, i ≤ j ∧ j < i + fuel ∧ sprintfSD base j ∉ vals) →
      i ≤ findSuffix vals base i fuel ∧
      sprintfSD base (findSuffix vals base i fuel) ∉ vals ∧
      ∀ j, i ≤ j → j < findSuffix vals base i fuel → sprintfSD base j ∈ vals := by
  intro fuel
  induction fuel with
  | zero =>
    intro i h
    obtain ⟨j, h1, h2, _⟩ := h
    omega
  | succ f ih =>
    intro i h
    obtain ⟨j, h1, h2, h3⟩ := h
    rw [findSuffix]
    by_cases hmem : sprintfSD base i ∈ vals
    · rw [if_pos hmem]
      have hji : i + 1 ≤ j := by
        rcases Nat.eq_or_lt_of_le h1 with he | hl
        · exfalso
          rw [← he] at h3
          exact h3 hmem
        · omega
      obtain ⟨ha, hb, hcp⟩ := ih (i + 1) ⟨j, hji, by omega, h3⟩
      refine ⟨by omega, hb, ?_⟩
      intro j' hj1 hj2
      rcases Nat.eq_or_lt_of_le hj1 with he | hl
      · rw [← he]
        exact hmem
      · exact hcp j' (by omega) hj2
    · rw [if_neg hmem]
      exact ⟨le_refl i, hmem, fun j' hj1 hj2 => (by omega : False).elim⟩

theorem mem_mapSet_self (vals : List (List Nat)) (k : List Nat) : k ∈ mapSet vals k := by
  unfold mapSet
  by_cases h : k ∈ vals
  · rw [if_pos h]
    exact h
  · rw [if_neg h]
    exact List.mem_cons_self k vals

theorem mapSet_mono (vals : List (List Nat)) (k x : List Nat) (h : x ∈ vals) :
    x ∈ mapSet vals k := by
  unfold mapSet
  by_cases hk : k ∈ vals
  · rw [if_pos hk]
    exact h
  · rw [if_neg hk]
    exact List.mem_cons_of_mem k h

theorem resolve_fst_not_mem (s : Ids) (c : List Nat) : (resolve s c).1 ∉ s.values := by
  unfold resolve
  by_cases h : c ∈ s.values
  · rw [if_pos h]
    obtain ⟨j, hj1, hj2, hj3⟩ := exists_absent_suffix s.values c
    exact (findSuffix_least s.values c (s.values.length + 1) 1 ⟨j, by omega, by omega, hj3⟩).2.1
  · rw [if_neg h]
    exact h

theorem resolve_fst_mem (s : Ids) (c : List Nat) :
    (resolve s c).1 ∈ (resolve s c).2.values := by
  unfold resolve
  by_cases h : c ∈ s.values
  · rw [if_pos h]
    exact mem_mapSet_self _ _
  · rw [if_neg h]
    exact mem_mapSet_self _ _

theorem resolve_mono (s : Ids) (c x : List Nat) (h : x ∈ s.values) :
    x ∈ (resolve s c).2.values := by
  unfold resolve
  by_cases hm : c ∈ s.values
  · rw [if_pos hm]
    exact mapSet_mono _ _ _ h
  · rw [if_neg hm]
    exact mapSet_mono _ _ _ h

theorem runOps_mono : ∀ (ops : List Op) (s : Ids) (x : List Nat),
    x ∈ s.values → x ∈ (runOps s ops).values := by
  intro ops
  induction ops with
  | nil =>
    intro s x h
    exact h
  | cons op rest ih =>
    intro s x h
    cases op with
    | gen v k => exact ih _ _ (resolve_mono s _ x h)
    | put v => exact ih _ _ (mapSet_mono _ _ _ h)

theorem emitted_mem : ∀ (ops : List Op) (s : Ids) (x : List Nat),
    x ∈ emitted s ops → x ∈ (runOps s ops).values := by
  intro ops
  induction ops with
  | nil =>
    intro s x h
    simp [emitted] at h
  | cons op rest ih =>
    intro s x h
    cases op with
    | gen v k =>
      rw [emitted, List.mem_cons] at h
      rcases h with h | h
      · subst h
        exact runOps_mono rest _ _ (resolve_fst_mem s _)
      · exact ih _ _ h
    | put v =>
      rw [emitted, List.mem_cons] at h
      rcases h with h | h
      · subst h
        exact runOps_mono rest _ _ (mem_mapSet_self _ _)
      · exact ih _ _ h

theorem genOuts_not_mem : ∀ (ops : List Op) (s : Ids) (x : List Nat),
    x ∈ s.values → x ∉ genOuts s ops := by
  intro ops
  induction ops with
  | nil =>
    intro s x _ h
    simp [genOuts] at h
  | cons op rest ih =>
    intro s x hx h
    cases op with
    | gen v k =>
      rw [genOuts, List.mem_cons] at h
      rcases h with h | h
      · exact resolve_fst_not_mem s _ (h ▸ hx)
      · exact ih _ _ (resolve_mono s _ x hx) h
    | put v =>
      rw [genOuts] at h
      exact ih _ _ (mapSet_mono _ _ _ hx) h

theorem genOuts_nodup : ∀ (ops : List Op) (s : Ids), (genOuts s ops).Nodup := by
  intro ops
  induction ops with
  | nil =>
    intro s
    simp [genOuts]
  | cons op rest ih =>
    intro s
    cases op with
    | gen v k =>
      rw [genOuts, List.nodup_cons]
      exact ⟨genOuts_not_mem rest _ _ (resolve_fst_mem s _), ih _⟩
    | put v =>
      rw [genOuts]
      exact ih _

theorem slugLoop_eq_part000 (sep : Nat) :
    ∀ fuel inp buf prev,
      (∀ r ∈ runesOf fuel inp, replGoLookup r = replPart000Lookup r) →
      slugLoop sep fuel inp buf prev = slugLoopPart000 sep fuel inp buf prev := by
  intro fuel
  induction fuel with
  | zero =>
    intro inp buf prev _
    simp [slugLoop, slugLoopPart000]
  | succ n ih =>
    intro inp buf prev h
    cases inp with
    | nil => simp [slugLoop, slugLoopPart000]
    | cons b rest =>
      have hhead : replGoLookup (utf8DecodeRune (b :: rest)).1 =
          replPart000Lookup (utf8DecodeRune (b :: rest)).1 := by
        apply h
        rw [runesOf]
        exact List.mem_cons_self _ _
      have htail : ∀ r ∈ runesOf n ((b :: rest).drop (utf8DecodeRune (b :: rest)).2),
          replGoLookup r = replPart000Lookup r := by
        intro r hr
        apply h
        rw [runesOf]
        exact List.mem_cons_of_mem _ hr
      simp only [slugLoop, slugLoopPart000]
      rw [← hhead]
      repeat' split
      all_goals exact ih _ _ _ htail

theorem slugify_alphabet (inp : List Nat) (sep : Nat) :
    ∀ c ∈ slugify inp sep, isOutAl c ∨ c = sep := by
  unfold slugify
  split
  · simp
  · intro c hc
    exact slugLoop_alphabet sep inp.length inp [] false (by simp) c (slugTrim_subset sep _ hc)

theorem candidate_eq_of_empty (v : List Nat) (k : NodeKind) (h : slugify v 0x2D = []) :
    candidate v k = if k = NodeKind.heading then strBytes "heading" else strBytes "id" := by
  unfold candidate
  rw [h]
  simp

theorem candidate_eq_of_nonempty (v : List Nat) (k : NodeKind) (h : slugify v 0x2D ≠ []) :
    candidate v k = slugify v 0x2D := by
  unfold candidate
  simp [h]

theorem candidate_alphabet (v : List Nat) (k : NodeKind) :
    ∀ c ∈ candidate v k, isOutAl c ∨ c = 0x2D := by
  by_cases hs : slugify v 0x2D = []
  · rw [candidate_eq_of_empty v k hs]
    by_cases hk : k = NodeKind.heading
    · rw [if_pos hk]
      have hh : ∀ c ∈ strBytes "heading", isOutAl c ∨ c = 0x2D := by decide
      exact hh
    · rw [if_neg hk]
      have hh : ∀ c ∈ strBytes "id", isOutAl c ∨ c = 0x2D := by decide
      exact hh
  · rw [candidate_eq_of_nonempty v k hs]
    exact slugify_alphabet v 0x2D

theorem candidate_ne_nil (v : List Nat) (k : NodeKind) : candidate v k ≠ [] := by
  by_cases hs : slugify v 0x2D = []
  · rw [candidate_eq_of_empty v k hs]
    by_cases hk : k = NodeKind.heading
    · rw [if_pos hk]
      decide
    · rw [if_neg hk]
      decide
  · rw [candidate_eq_of_nonempty v k hs]
    exact hs

theorem resolve_fst_ne_nil (s : Ids) (c : List Nat) (h : c ≠ []) : (resolve s c).1 ≠ [] := by
  unfold resolve
  by_cases hm : c ∈ s.values
  · rw [if_pos hm]
    simp [sprintfSD]
  · rw [if_neg hm]
    exact h

theorem resolve_alphabet (s : Ids) (c : List Nat)
    (h : ∀ x ∈ c, isOutAl x ∨ x = 0x2D) :
    ∀ x ∈ (resolve s c).1, isOutAl x ∨ x = 0x2D := by
  unfold resolve
  by_cases hm : c ∈ s.values
  · rw [if_pos hm]
    intro x hx
    simp only [sprintfSD] at hx
    rcases List.mem_append.mp hx with h1 | h1
    · exact h x h1
    · rw [List.mem_cons] at h1
      rcases h1 with h1 | h1
      · exact Or.inr h1
      · exact Or.inl (Or.inr (natBytesGo_digits _ _ x h1))
  · rw [if_neg hm]
    exact h

/- ### Claim theorems -/

/-- C1: registry uniqueness invariant.  For every sequence of Generate/Put
calls on a registry started from NewIDs, every string returned by Generate
and every string passed to Put is a member of the set afterwards, the
Generate results are pairwise distinct, and at each Generate call the
returned string is not in the set at call time and differs from every string
previously returned or reserved. -/
theorem registry_uniqueness_invariant (ops : List Op) :
    (∀ x ∈ emitted NewIDs ops, x ∈ (runOps NewIDs ops).values)
    ∧ (genOuts NewIDs ops).Nodup
    ∧ ∀ pre suf v k, ops = pre ++ Op.gen v k :: suf →
        (Generate (runOps NewIDs pre) v k).1 ∉ (runOps NewIDs pre).values
        ∧ ∀ x ∈ emitted NewIDs pre, x ≠ (Generate (runOps NewIDs pre) v k).1 := by
  refine ⟨emitted_mem ops NewIDs, genOuts_nodup ops NewIDs, ?_⟩
  intro pre suf v k _
  refine ⟨resolve_fst_not_mem _ _, ?_⟩
  intro x hx heq
  exact resolve_fst_not_mem (runOps NewIDs pre) (candidate v k)
    (heq ▸ emitted_mem pre NewIDs x hx)

theorem registry_uniqueness_invariant_witness :
    strBytes "intro-1" ∈
      (runOps NewIDs [Op.put (strBytes "intro"),
        Op.gen (strBytes "Intro") NodeKind.heading]).values :=
  (registry_uniqueness_invariant
    [Op.put (strBytes "intro"), Op.gen (strBytes "Intro") NodeKind.heading]).1
    (strBytes "intro-1") (by decide)

/-- C2: collision resolution.  When the candidate computed by Generate is
already in the set, Generate returns the composite with the least suffix
integer i at least 1 whose composite is absent, checking each composite as a
full string; and after Put of the string intro, Generate of the text Intro
with the heading kind returns intro-1. -/
theorem generate_collision_resolution :
    (∀ (s : Ids) (v : List Nat) (k : NodeKind), candidate v k ∈ s.values →
      ∃ i, 1 ≤ i ∧ (Generate s v k).1 = sprintfSD (candidate v k) i ∧
        sprintfSD (candidate v k) i ∉ s.values ∧
        ∀ j, 1 ≤ j → j < i → sprintfSD (candidate v k) j ∈ s.values)
    ∧ (Generate (Put NewIDs (strBytes "intro")) (strBytes "Intro") NodeKind.heading).1 =
        strBytes "intro-1" := by
  constructor
  · intro s v k h
    obtain ⟨j, hj1, hj2, hj3⟩ := exists_absent_suffix s.values (candidate v k)
    obtain ⟨ha, hb, hc⟩ := findSuffix_least s.values (candidate v k) (s.values.length + 1) 1
      ⟨j, by omega, by omega, hj3⟩
    refine ⟨findSuffix s.values (candidate v k) 1 (s.values.length + 1), by omega, ?_, hb, hc⟩
    show (resolve s (candidate v k)).1 = _
    unfold resolve
    rw [if_pos h]
  · decide

theorem generate_collision_resolution_witness :
    ∃ i, 1 ≤ i ∧
      (Generate (Put NewIDs (strBytes "x")) (strBytes "x") NodeKind.heading).1 =
        sprintfSD (candidate (strBytes "x") NodeKind.heading) i ∧
      sprintfSD (candidate (strBytes "x") NodeKind.heading) i ∉
        (Put NewIDs (strBytes "x")).values ∧
      ∀ j, 1 ≤ j → j < i →
        sprintfSD (candidate (strBytes "x") NodeKind.heading) j ∈
          (Put NewIDs (strBytes "x")).values :=
  generate_collision_resolution.1 (Put NewIDs (strBytes "x")) (strBytes "x")
    NodeKind.heading (by decide)

/-- C3: fallback policy.  When the slug of the text is empty Generate
resolves the fallback token, heading for heading kind and id otherwise, by
the normal uniqueness resolution; Generate never returns an empty
identifier; and repeated Generate calls on empty-slugifying input yield the
fallback, then the fallback with -1, -2, and so on. -/
theorem generate_fallback_policy :
    (∀ (s : Ids) (v : List Nat) (k : NodeKind), slugify v 0x2D = [] →
        Generate s v k =
          resolve s (if k = NodeKind.heading then strBytes "heading" else strBytes "id"))
    ∧ (∀ (s : Ids) (v : List Nat) (k : NodeKind), (Generate s v k).1 ≠ [])
    ∧ genOuts NewIDs [Op.gen [] NodeKind.heading, Op.gen [] NodeKind.heading,
        Op.gen [] NodeKind.heading] =
        [strBytes "heading", strBytes "heading-1", strBytes "heading-2"]
    ∧ genOuts NewIDs [Op.gen [] NodeKind.other, Op.gen [] NodeKind.other] =
        [strBytes "id", strBytes "id-1"] := by
  refine ⟨?_, ?_, by decide, by decide⟩
  · intro s v k h
    unfold Generate candidate
    rw [h]
    simp
  · intro s v k
    exact resolve_fst_ne_nil s _ (candidate_ne_nil v k)

theorem generate_fallback_policy_witness :
    Generate NewIDs (strBytes "!!!") NodeKind.heading =
      resolve NewIDs (if NodeKind.heading = NodeKind.heading then strBytes "heading"
        else strBytes "id") :=
  generate_fallback_policy.1 NewIDs (strBytes "!!!") NodeKind.heading (by decide)

/-- C4 counterexample: with separator byte 0x61, the letter a, the output of
slugify on the input ba!b is baab, which contains two adjacent separator
bytes, so the claim does not hold for every separator byte. -/
theorem slugify_separator_placement_cex :
    slugify (strBytes "ba!b") 0x61 = strBytes "baab" ∧
      ¬ noAdjSep 0x61 (slugify (strBytes "ba!b") 0x61) := by
  constructor
  · decide
  · intro h
    rw [show slugify (strBytes "ba!b") 0x61 = [0x62, 0x61, 0x61, 0x62] from by decide] at h
    rw [noAdjSep, List.chain'_cons, List.chain'_cons] at h
    exact h.2.1 ⟨rfl, rfl⟩

/-- C4 amended: for every input byte sequence and every separator byte that
is not an ASCII lowercase letter or digit, the output of slugify never
starts with the separator, never ends with the separator, and never contains
two adjacent separator bytes. -/
theorem slugify_separator_placement (inp : List Nat) (sep : Nat) (hsep : ¬ isOutAl sep) :
    (slugify inp sep).head? ≠ some sep ∧ (slugify inp sep).getLast? ≠ some sep ∧
      noAdjSep sep (slugify inp sep) := by
  unfold slugify
  split
  · exact ⟨by simp, by simp, noAdjSep_of_forall_ne sep [] (by simp)⟩
  · obtain ⟨p, hinv⟩ := slugLoop_sepInv sep hsep inp.length inp [] false
      ⟨by simp, noAdjSep_of_forall_ne sep [] (by simp), by simp⟩
    exact slugTrim_sepProps sep _ hinv.2.1 hinv.2.2

theorem slugify_separator_placement_witness :
    (slugify (strBytes "a!b") 0x2D).head? ≠ some 0x2D ∧
      (slugify (strBytes "a!b") 0x2D).getLast? ≠ some 0x2D ∧
      noAdjSep 0x2D (slugify (strBytes "a!b") 0x2D) :=
  slugify_separator_placement (strBytes "a!b") 0x2D (by decide)

/-- C5: output alphabet.  Every byte of the output of slugify is an ASCII
lowercase letter, an ASCII digit, or the separator byte; consequently every
identifier returned by Generate, which uses the dash separator, is nonempty
and contains only lowercase letters, digits, and the dash. -/
theorem slugify_output_alphabet :
    (∀ (inp : List Nat) (sep : Nat), ∀ c ∈ slugify inp sep, isOutAl c ∨ c = sep)
    ∧ ∀ (s : Ids) (v : List Nat) (k : NodeKind),
        (Generate s v k).1 ≠ [] ∧ ∀ c ∈ (Generate s v k).1, isOutAl c ∨ c = 0x2D := by
  refine ⟨fun inp sep => slugify_alphabet inp sep, ?_⟩
  intro s v k
  exact ⟨resolve_fst_ne_nil s _ (candidate_ne_nil v k),
    resolve_alphabet s _ (candidate_alphabet v k)⟩

theorem slugify_output_alphabet_witness :
    (isOutAl 0x68 ∨ 0x68 = 0x2D) ∧
      ((Generate NewIDs (strBytes "Hi") NodeKind.other).1 ≠ [] ∧
        ∀ c ∈ (Generate NewIDs (strBytes "Hi") NodeKind.other).1, isOutAl c ∨ c = 0x2D) :=
  ⟨slugify_output_alphabet.1 (strBytes "Hi") 0x2D 0x68 (by decide),
    slugify_output_alphabet.2 NewIDs (strBytes "Hi") NodeKind.other⟩

/-- C6: transliteration vector.  slugify of the text Café Münster with the
dash separator is exactly cafe-munster. -/
theorem slugify_transliteration_vector :
    slugify (strBytes "Café Münster") 0x2D = strBytes "cafe-munster" := by
  decide

/-- C7: collapsing vector.  slugify of the text Hello, World! with the dash
separator is exactly hello-world. -/
theorem slugify_collapsing_vector :
    slugify (strBytes "Hello, World!") 0x2D = strBytes "hello-world" := by
  decide

/-- C8: suffix-search termination.  For every registry state and every
nonempty candidate there is a least suffix integer i at least 1 whose
composite is absent from the set, and the suffix-search loop run with fuel
one more than the set size returns exactly that i. -/
theorem generate_suffix_search_terminates (s : Ids) (base : List Nat) (_hne : base ≠ []) :
    ∃ i, 1 ≤ i ∧ sprintfSD base i ∉ s.values ∧
      (∀ j, 1 ≤ j → j < i → sprintfSD base j ∈ s.values) ∧
      findSuffix s.values base 1 (s.values.length + 1) = i := by
  obtain ⟨j, hj1, hj2, hj3⟩ := exists_absent_suffix s.values base
  obtain ⟨ha, hb, hc⟩ := findSuffix_least s.values base (s.values.length + 1) 1
    ⟨j, by omega, by omega, hj3⟩
  exact ⟨findSuffix s.values base 1 (s.values.length + 1), by omega, hb, hc, rfl⟩

theorem generate_suffix_search_terminates_witness :
    ∃ i, 1 ≤ i ∧ sprintfSD (strBytes "x") i ∉ NewIDs.values ∧
      (∀ j, 1 ≤ j → j < i → sprintfSD (strBytes "x") j ∈ NewIDs.values) ∧
      findSuffix NewIDs.values (strBytes "x") 1 (NewIDs.values.length + 1) = i :=
  generate_suffix_search_terminates NewIDs (strBytes "x") (by decide)

/-- C9: totality on malformed input.  Every decoding step on a nonempty
input consumes at least one byte and at most the remaining length, so the
rune loop of slugify terminates: running it with any fuel at least the input
length gives the same result as the fuel used by slugify, and no error
branch exists. -/
theorem slugify_totality :
    (∀ inp : List Nat, inp ≠ [] →
        1 ≤ (utf8DecodeRune inp).2 ∧ (utf8DecodeRune inp).2 ≤ inp.length)
    ∧ ∀ (sep fuel : Nat) (inp buf : List Nat) (prev : Bool), inp.length ≤ fuel →
        slugLoop sep fuel inp buf prev = slugLoop sep inp.length inp buf prev := by
  refine ⟨utf8DecodeRune_size, ?_⟩
  intro sep fuel inp buf prev h
  exact slugLoop_fuel sep fuel inp.length inp buf prev h (le_refl _)

theorem slugify_totality_witness :
    (1 ≤ (utf8DecodeRune [0xFF]).2 ∧ (utf8DecodeRune [0xFF]).2 ≤ [0xFF].length) ∧
      slugLoop 0x2D 5 [0xFF] [] false = slugLoop 0x2D [0xFF].length [0xFF] [] false :=
  ⟨slugify_totality.1 [0xFF] (by decide),
    slugify_totality.2 0x2D 5 [0xFF] [] false (by decide)⟩

/-- C10 counterexample: the two slugify implementations are not equivalent.
On the single rune 0x11F, the letter g with breve, the version of
src/headingid.go transliterates to g while the version of
src/unnamed/part_000, whose table lacks that rune, drops it and returns the
empty output. -/
theorem slugify_implementations_differ :
    slugify (strBytes "ğ") 0x2D = strBytes "g" ∧
      slugifyPart000 (strBytes "ğ") 0x2D = [] ∧
      slugify (strBytes "ğ") 0x2D ≠ slugifyPart000 (strBytes "ğ") 0x2D := by
  exact ⟨by decide, by decide, by decide⟩

/-- C10 amended: the two slugify implementations compute identical output
for every input byte sequence and separator whose decoded runes all have
equal transliteration lookups in the two tables; the implementations differ
exactly where the lookups differ, as on the rune 0x11F. -/
theorem slugify_implementations_agree (inp : List Nat) (sep : Nat)
    (h : ∀ r ∈ runesOf inp.length inp, replGoLookup r = replPart000Lookup r) :
    slugify inp sep = slugifyPart000 inp sep := by
  unfold slugify slugifyPart000
  split
  · rfl
  · rw [slugLoop_eq_part000 sep inp.length inp [] false h]

theorem slugify_implementations_agree_witness :
    slugify (strBytes "Café") 0x2D = slugifyPart000 (strBytes "Café") 0x2D :=
  slugify_implementations_agree (strBytes "Café") 0x2D (by decide)

end HeadingId
